import Mathlib

/-!
# Verification of the LynkOS `VirtualFileSystem` (Desktop.jsx)

Shallow embedding of the `VirtualFileSystem` class of `Desktop.jsx`
(the IndexedDB-backed VFS shared by all apps), together with proofs of
the testable properties stated in the specification.

Modelling conventions:

* An absolute `/`-delimited path string is represented by its list of
  segments: `"/"` is `[]`, `"/Users/Admin"` is `["Users", "Admin"]`.
  The JS path manipulations (`split('/')`, replacing the last segment,
  `join('/')`, and the `parent === '/' ? '/'+name : parent+'/'+name`
  concatenation) all become plain list operations on segments.
* The IndexedDB object store `files` (keyPath `'path'`, secondary index
  on `parent`) is a list of `Entry` records; `get` is a primary-key
  lookup, `index('parent').getAll(p)` is a filter on the `parent`
  field, `add` fails when the key is already present, `put` is
  insert-or-replace, `delete` removes the record with the given key.
* `Date.now()` is an explicit `now : Nat` argument to every operation
  that stamps timestamps.
* The unbounded recursions of the JS code (recursive `delete`, `copy`,
  `search`, `dirSize`, and the collision-resolution `while` loop in
  `copy`) are modelled with an explicit fuel argument; running out of
  fuel (`Option.none` / `Res.interrupted`) models an operation that was
  interrupted before completing.
* JS `null` results are modelled as ordinary `Option.none` /
  `Res.nullRes` return values, and a rejected promise coming from a
  failed `add` as `Res.errRes`.
-/

namespace VFS

/-- A path, as its list of `/`-separated segments (root `"/"` = `[]`). -/
abbrev Path := List String

/-- `type` field of a record: `'folder'` or `'file'`. -/
inductive EType where
  | folder : EType
  | file : EType
deriving DecidableEq, Repr

/-- One record of the `files` object store.
`parent` is `none` only for the seeded root record (JS `null`);
`content` is `none` when the JS record has no `content` field
(folders are created without one). -/
structure Entry where
  path : Path
  name : String
  type : EType
  parent : Option Path
  content : Option String
  size : Nat
  created : Nat
  modified : Nat
  permissions : String
  owner : String
deriving DecidableEq, Repr

/-- The `files` object store. -/
abbrev Store := List Entry

/-- `store.get(path)`: primary-key lookup, `null` when absent. -/
def getE (s : Store) (p : Path) : Option Entry :=
  s.find? (fun e => e.path = p)

/-- `index('parent').getAll(parent)`: all records whose `parent` field
equals the given path. -/
def listE (s : Store) (p : Path) : List Entry :=
  s.filter (fun e => e.parent = some p)

/-- `store.add(obj)`: insert, failing (`none`) when the key is taken. -/
def addE (s : Store) (e : Entry) : Option Store :=
  match getE s e.path with
  | some _ => none
  | none => some (s ++ [e])

/-- `store.put(obj)`: replace the record with the same key, or insert. -/
def putE (s : Store) (e : Entry) : Store :=
  match getE s e.path with
  | some _ => s.map (fun x => if x.path = e.path then e else x)
  | none => s ++ [e]

/-- `store.delete(path)`: remove the record with the given key
(no error when absent). -/
def eraseE (s : Store) (p : Path) : Store :=
  s.filter (fun e => e.path ≠ p)

/-- JS `` parent === '/' ? `/${name}` : `${parent}/${name}` ``:
on segment lists both arms are appending one segment. -/
def childPath (parent : Path) (name : String) : Path :=
  parent ++ [name]

/-- `createFolder(parent, name)`: builds the path, inserts a folder
record; the underlying `add` rejects (`none`) iff the path is taken.
No check that `parent` exists is ever made. -/
def createFolder (s : Store) (parent : Path) (name : String) (now : Nat) :
    Option (Entry × Store) :=
  let folder : Entry :=
    { path := childPath parent name, name := name, type := EType.folder,
      parent := some parent, content := none, size := 0,
      created := now, modified := now, permissions := "rwx", owner := "admin" }
  (addE s folder).map (fun s' => (folder, s'))

/-- `createFile(parent, name, content = '')`: same path rule,
`size = content.length`; again no check on `parent`.  (The JS code also
pushes the new entry onto the recent-files metadata list, which lives
outside the `files` store and is not modelled here.) -/
def createFile (s : Store) (parent : Path) (name : String)
    (content : String) (now : Nat) : Option (Entry × Store) :=
  let file : Entry :=
    { path := childPath parent name, name := name, type := EType.file,
      parent := some parent, content := some content, size := content.length,
      created := now, modified := now, permissions := "rw-", owner := "admin" }
  (addE s file).map (fun s' => (file, s'))

/-- The partial-fields argument of `updateFile`.  The JS caller passes a
plain object that is spread over the record (`{...item, ...updates,
modified: Date.now()}`); we model the fields the application updates
(`content`, `size`, `name`, `permissions`).  A `modified` field in the
updates would be overwritten by the explicit `modified: Date.now()`. -/
structure Updates where
  name : Option String := none
  content : Option String := none
  size : Option Nat := none
  permissions : Option String := none
deriving DecidableEq, Repr

/-- `{...item, ...updates, modified: Date.now()}`. -/
def applyUpdates (e : Entry) (u : Updates) (now : Nat) : Entry :=
  { e with
    name := u.name.getD e.name
    content := match u.content with | some c => some c | none => e.content
    size := u.size.getD e.size
    permissions := u.permissions.getD e.permissions
    modified := now }

/-- `updateFile(path, updates)`: resolves with `null` (and leaves the
store untouched) when the path is absent — this is a normal resolution
of the promise, not a rejection; otherwise merges the fields, stamps
`modified`, `put`s the record and returns it. -/
def updateFile (s : Store) (p : Path) (u : Updates) (now : Nat) :
    Option Entry × Store :=
  match getE s p with
  | none => (none, s)
  | some item =>
      let updated := applyUpdates item u now
      (some updated, putE s updated)

/-- Runs a store-transforming action over a list of child records,
threading the store; `none` (out of fuel in the action) aborts the
whole run.  This is the `for (const c of children) await this.delete(c.path)`
loop of the recursive `delete`. -/
def runList (f : Store → Path → Option Store) : List Entry → Store → Option Store
  | [], s => some s
  | c :: cs, s =>
      match f s c.path with
      | none => none
      | some s' => runList f cs s'

/-- `delete(path)`, with fuel: resolves with the untouched store when
the path is absent (`NotFound` is swallowed — idempotent delete); for a
folder, first recursively deletes every child of the snapshot taken by
`list(path)` (depth-first, children before the folder itself), then
removes the record itself.  `none` = ran out of fuel (interrupted). -/
def deleteOp : Nat → Store → Path → Option Store
  | 0, _, _ => none
  | n + 1, s, p =>
      match getE s p with
      | none => some s
      | some item =>
          match
            (if item.type = EType.folder
             then runList (deleteOp n) (listE s p) s
             else some s) with
          | none => none
          | some s₁ => some (eraseE s₁ p)

/-- Outcome of a fueled VFS operation returning a value of type `α`:
`interrupted` = ran out of fuel mid-sequence, `nullRes` = the JS promise
resolved with `null`, `errRes` = the underlying `add` request rejected,
`ok` = normal resolution. -/
inductive Res (α : Type) where
  | interrupted : Res α
  | nullRes : Res α
  | errRes : Res α
  | ok : α → Res α
deriving DecidableEq, Repr

/-- `rename(oldPath, newName)`: resolves with `null` when the source is
absent; otherwise computes `newPath` by replacing the last path segment
(JS: `split('/')`, overwrite last slot, `join('/')` — on segment lists
`dropLast ++ [newName]`), runs the *recursive* `this.delete(oldPath)`,
then `add`s a copy of the old record with updated `path`/`name`/`modified`. -/
def renameOp : Nat → Store → Path → String → Nat → Res (Entry × Store)
  | 0, _, _, _, _ => Res.interrupted
  | n + 1, s, oldPath, newName, now =>
      match getE s oldPath with
      | none => Res.nullRes
      | some item =>
          match deleteOp n s oldPath with
          | none => Res.interrupted
          | some s₁ =>
              let newItem : Entry :=
                { item with path := oldPath.dropLast ++ [newName],
                            name := newName, modified := now }
              match addE s₁ newItem with
              | none => Res.errRes
              | some s₂ => Res.ok (newItem, s₂)

/-- JS `name.includes('.')` (single-character needle). -/
def strContainsChar (s : String) (c : Char) : Bool :=
  s.toList.any (fun x => x = c)

/-- JS `str.split(sep)` for a one-character separator, on the
character list of the string.  Splitting the empty string gives one
empty chunk, like JS `"".split('.')` gives `[""]`. -/
def splitChar (sep : Char) : List Char → List (List Char)
  | [] => [[]]
  | c :: cs =>
      match splitChar sep cs with
      | [] => [[c]]
      | r :: rs => if c = sep then [] :: r :: rs else (c :: r) :: rs

/-- JS `name.split('.').pop()`. -/
def lastSegAfterDot (name : String) : String :=
  String.mk ((splitChar '.' name.toList).getLastD [])

/-- JS `s.slice(0, -k)`: the string without its last `k` characters. -/
def dropRightStr (s : String) (k : Nat) : String :=
  String.mk (s.toList.take (s.toList.length - k))

/-- The collision-resolution `while (await this.get(newPath))` loop of
`copy`: starting from the source's name and `counter = 1`, repeatedly
splits the current candidate into base and extension (`'.' +
name.split('.').pop()` when the name contains a dot, else no extension)
and tries `` `${base} (${counter++})${ext}` `` until the path under
`destParent` is free.  Fueled; returns the free name and path. -/
def freeName : Nat → Store → Path → String → Nat → Option (String × Path)
  | 0, _, _, _, _ => none
  | n + 1, s, destParent, name, counter =>
      match getE s (childPath destParent name) with
      | none => some (name, childPath destParent name)
      | some _ =>
          let ext := if strContainsChar name '.'
                     then "." ++ lastSegAfterDot name
                     else ""
          let base := if ext = "" then name else dropRightStr name ext.length
          freeName n s destParent (base ++ " (" ++ toString counter ++ ")" ++ ext)
            (counter + 1)

/-- The `for (const c of children) await this.copy(c.path, newPath)`
loop of the recursive `copy`.  The JS loop ignores the value of each
inner copy, so an inner `null` resolution just moves on with the store
unchanged, while a rejection or an interruption aborts the run. -/
def copyChildList (f : Store → Path → Res (Entry × Store)) :
    List Entry → Store → Res Store
  | [], s => Res.ok s
  | c :: cs, s =>
      match f s c.path with
      | Res.ok (_, s') => copyChildList f cs s'
      | Res.nullRes => copyChildList f cs s
      | Res.errRes => Res.errRes
      | Res.interrupted => Res.interrupted

/-- `copy(srcPath, destParent)`: resolves with `null` when the source is
absent; otherwise finds a collision-free name, `add`s a clone of the
source with new `path`/`name`/`parent` and fresh timestamps, and, when
the source is a folder, recursively copies the children returned by
`list(srcPath)` *on the store that already contains the clone* into the
new folder. -/
def copyOp : Nat → Store → Path → Path → Nat → Res (Entry × Store)
  | 0, _, _, _, _ => Res.interrupted
  | n + 1, s, srcPath, destParent, now =>
      match getE s srcPath with
      | none => Res.nullRes
      | some src =>
          match freeName (n + 1) s destParent src.name 1 with
          | none => Res.interrupted
          | some (nm, newPath) =>
              let newItem : Entry :=
                { src with path := newPath, name := nm,
                           parent := some destParent,
                           created := now, modified := now }
              match addE s newItem with
              | none => Res.errRes
              | some s₁ =>
                  if src.type = EType.folder then
                    match
                      copyChildList (fun st q => copyOp n st q newPath now)
                        (listE s₁ srcPath) s₁ with
                    | Res.ok s₂ => Res.ok (newItem, s₂)
                    | Res.nullRes => Res.ok (newItem, s₁)
                    | Res.errRes => Res.errRes
                    | Res.interrupted => Res.interrupted
                  else Res.ok (newItem, s₁)

/-- `move(srcPath, destParent)`: `copy` followed by `delete` of the
original; when the copy resolves with `null` the delete still runs
(a no-op, since the source is absent) and `null` is returned. -/
def moveOp (n : Nat) (s : Store) (srcPath destParent : Path) (now : Nat) :
    Res (Entry × Store) :=
  match copyOp n s srcPath destParent now with
  | Res.ok (copied, s₁) =>
      match deleteOp n s₁ srcPath with
      | none => Res.interrupted
      | some s₂ => Res.ok (copied, s₂)
  | Res.nullRes =>
      match deleteOp n s srcPath with
      | none => Res.interrupted
      | some _ => Res.nullRes
  | Res.errRes => Res.errRes
  | Res.interrupted => Res.interrupted

/-- JS `hay.includes(needle)`: substring containment. -/
def strIncludes (hay needle : String) : Bool :=
  decide (needle.toList <:+: hay.toList)

/-- JS `s.toLowerCase()` (character-wise lowering). -/
def lowerStr (s : String) : String :=
  String.mk (s.toList.map Char.toLower)

/-- The `for (const it of items)` body of `search`'s `walk`: pushes `it`
when `it.name.toLowerCase().includes(query.toLowerCase())`, then (before
moving to the next sibling) walks into `it` when it is a folder. -/
def searchChildList (f : Path → Option (List Entry)) (q : String) :
    List Entry → Option (List Entry)
  | [] => some []
  | it :: rest =>
      match (if it.type = EType.folder then f it.path else some []) with
      | none => none
      | some sub =>
          match searchChildList f q rest with
          | none => none
          | some tail =>
              some ((if strIncludes (lowerStr it.name) (lowerStr q) then [it] else [])
                ++ sub ++ tail)

/-- `search(query, root)`: recursive, case-insensitive substring match
against `name` over the subtree below `root` (the walk starts from
`list(root)`, so the record at `root` itself is never examined). -/
def searchOp : Nat → Store → String → Path → Option (List Entry)
  | 0, _, _, _ => none
  | n + 1, s, q, p => searchChildList (fun p' => searchOp n s q p') q (listE s p)

/-- The `for (const c of ch) total += await this.dirSize(c.path)` loop. -/
def dirSizeList (f : Path → Option Nat) : List Entry → Option Nat
  | [] => some 0
  | c :: cs =>
      match f c.path with
      | none => none
      | some a =>
          match dirSizeList f cs with
          | none => none
          | some b => some (a + b)

/-- `dirSize(path)`: `0` for an absent path, `item.size || 0` for a file
(`item.size` in our model, where `size` is always a number), and the sum
of the children's recursive sizes for a folder — folder `size` fields
are never read. -/
def dirSizeOp : Nat → Store → Path → Option Nat
  | 0, _, _ => none
  | n + 1, s, p =>
      match getE s p with
      | none => some 0
      | some item =>
          if item.type = EType.file then some item.size
          else dirSizeList (fun q => dirSizeOp n s q) (listE s p)

/-!
## Well-formedness of a store

The spec's data-model invariants for a tree-shaped store: unique paths;
every record's `parent` field is the dirname of its `path` (with the
root record `"/"` carrying a `null` parent); every record whose parent
is not the root is contained in an existing folder record; and a record
at the root path, if any, is a folder.
-/

/-- Well-formed store. -/
structure Inv (s : Store) : Prop where
  nodupPaths : (s.map Entry.path).Nodup
  parentEq : ∀ e ∈ s,
      (e.path = [] ∧ e.parent = none) ∨
      (e.path ≠ [] ∧ e.parent = some e.path.dropLast)
  closure : ∀ e ∈ s, e.path ≠ [] → e.path.dropLast ≠ [] →
      ∃ f ∈ s, f.path = e.path.dropLast ∧ f.type = EType.folder
  rootFolder : ∀ e ∈ s, e.path = [] → e.type = EType.folder

/-!
## Concrete stores used as test data

Builders mirror what `createFolder`/`createFile` produce (with the
timestamp fixed at `0`); concrete stores are kept in primary-key (path)
order, the order in which the IndexedDB index `getAll` returns records.
-/

/-- A folder record at `p` as `createFolder` would have produced it. -/
def mkFolderE (p : Path) : Entry :=
  { path := p, name := p.getLastD "/", type := EType.folder,
    parent := if p = [] then none else some p.dropLast,
    content := none, size := 0, created := 0, modified := 0,
    permissions := "rwx", owner := "admin" }

/-- A file record at `p` with content `c` as `createFile` would have
produced it. -/
def mkFileE (p : Path) (c : String) : Entry :=
  { path := p, name := p.getLastD "/", type := EType.file,
    parent := if p = [] then none else some p.dropLast,
    content := some c, size := c.length, created := 0, modified := 0,
    permissions := "rw-", owner := "admin" }

/-- Folder `/A` holding one file `/A/f.txt`. -/
def stA : Store := [mkFolderE ["A"], mkFileE ["A", "f.txt"] "hi"]

/-- What `rename('/A', 'B')` at time 7 inserts. -/
def stA_renamed : Entry :=
  { path := ["B"], name := "B", type := EType.folder, parent := some [],
    content := none, size := 0, created := 0, modified := 7,
    permissions := "rwx", owner := "admin" }

/-- The copy-collision scenario of the spec: `/A` already holds
`notes.txt`, `/B/notes.txt` is the source. -/
def stCopy : Store :=
  [mkFolderE ["A"], mkFileE ["A", "notes.txt"] "aaa",
   mkFolderE ["B"], mkFileE ["B", "notes.txt"] "hello"]

/-- Same, with `notes (1).txt` also taken under `/A`. -/
def stCopy2 : Store := stCopy ++ [mkFileE ["A", "notes (1).txt"] "x"]

/-- Search scenario: under `/r`, a matching folder `a` (holding a
matching file `x`) before a matching sibling file `b`. -/
def stSearch : Store :=
  [mkFolderE ["r"], mkFolderE ["r", "a"],
   mkFileE ["r", "a", "x"] "", mkFileE ["r", "b"] ""]

/-- Move scenario: `/C` already holds a file with the same content as
the file being moved in. -/
def stMove : Store :=
  [mkFolderE ["C"], mkFileE ["C", "y"] "hello", mkFileE ["x"] "hello"]

/-- Size scenario: two files of sizes 10 and 20 under `/D`. -/
def stSize : Store :=
  [mkFolderE ["D"], mkFileE ["D", "a"] "0123456789",
   mkFileE ["D", "b"] "01234567890123456789"]

/-- A one-file store for the update scenarios. -/
def stF : Store := [mkFileE ["f"] "ab"]

/-- The record produced by the first collision-resolved copy of
`/B/notes.txt` into `/A` at time 9. -/
def cpN1 : Entry :=
  { path := ["A", "notes (1).txt"], name := "notes (1).txt",
    type := EType.file, parent := some ["A"], content := some "hello",
    size := 5, created := 9, modified := 9, permissions := "rw-",
    owner := "admin" }

/-- The record produced by the second collision-resolved copy, when
`notes.txt` and `notes (1).txt` are both taken under `/A`. -/
def cpN12 : Entry :=
  { cpN1 with path := ["A", "notes (1) (2).txt"], name := "notes (1) (2).txt" }

/-- The orphan record `createFile('/Z', 'f.txt', '')` inserts although
no record `/Z` exists. -/
def orphanZ : Entry :=
  { path := ["Z", "f.txt"], name := "f.txt", type := EType.file,
    parent := some ["Z"], content := some "", size := 0, created := 0,
    modified := 0, permissions := "rw-", owner := "admin" }

/-- The record `copy('/x', '/C')` at time 9 inserts (no collision). -/
def movedX : Entry :=
  { path := ["C", "x"], name := "x", type := EType.file,
    parent := some ["C"], content := some "hello", size := 5, created := 9,
    modified := 9, permissions := "rw-", owner := "admin" }

/-- Move scenario without a same-content neighbour at the destination. -/
def stMoveOk : Store := [mkFolderE ["C"], mkFileE ["x"] "hello"]

/-- The record `createFile('/A', 'n.txt', 'hi')` at time 0 produces. -/
def newHi : Entry :=
  { path := ["A", "n.txt"], name := "n.txt", type := EType.file,
    parent := some ["A"], content := some "hi", size := "hi".length,
    created := 0, modified := 0, permissions := "rw-", owner := "admin" }

/-- Specification-side sum for `dirSize`: the sum of `size` over every
*file* record whose path is at or below `p` (folder `size` fields never
contribute). -/
def fileSum (s : Store) (p : Path) : Nat :=
  ((s.filter (fun e => decide (p <+: e.path) &&
      decide (e.type = EType.file))).map Entry.size).sum

/-!
## Basic lemmas about the store primitives
-/

theorem getE_eq_none {s : Store} {p : Path} :
    getE s p = none ↔ ∀ e ∈ s, e.path ≠ p := by
  simp [getE, List.find?_eq_none]

theorem mem_of_getE {s : Store} {p : Path} {e : Entry}
    (h : getE s p = some e) : e ∈ s ∧ e.path = p := by
  refine ⟨List.mem_of_find?_eq_some h, ?_⟩
  have := List.find?_some h
  simpa using this

theorem mem_listE {s : Store} {p : Path} {e : Entry} :
    e ∈ listE s p ↔ e ∈ s ∧ e.parent = some p := by
  simp [listE, List.mem_filter]

theorem entry_eq_of_path_eq {s : Store} (h : (s.map Entry.path).Nodup)
    {e₁ e₂ : Entry} (h₁ : e₁ ∈ s) (h₂ : e₂ ∈ s) (hp : e₁.path = e₂.path) :
    e₁ = e₂ :=
  List.inj_on_of_nodup_map h h₁ h₂ hp

theorem getE_of_mem {s : Store} (h : (s.map Entry.path).Nodup)
    {e : Entry} (he : e ∈ s) : getE s e.path = some e := by
  rcases hfind : getE s e.path with _ | f
  · exact absurd rfl (getE_eq_none.mp hfind e he)
  · obtain ⟨hf, hfp⟩ := mem_of_getE hfind
    exact congrArg some (entry_eq_of_path_eq h hf he hfp)

/-- The records kept by a delete of the subtree at `p`. -/
def keepOut (p : Path) (s : Store) : Store :=
  s.filter (fun e => !(decide (p <+: e.path)))

theorem mem_keepOut {p : Path} {s : Store} {e : Entry} :
    e ∈ keepOut p s ↔ e ∈ s ∧ ¬(p <+: e.path) := by
  simp [keepOut, List.mem_filter]

theorem keepOut_sublist (p : Path) (s : Store) :
    List.Sublist (keepOut p s) s :=
  List.filter_sublist s

/-- `keepOut` preserves well-formedness: the surviving records' parent
chains never cross into the removed subtree. -/
theorem Inv.keepOut {s : Store} (hs : Inv s) (p : Path) : Inv (keepOut p s) := by
  refine ⟨((keepOut_sublist p s).map Entry.path).nodup hs.nodupPaths, ?_, ?_, ?_⟩
  · intro e he
    exact hs.parentEq e (mem_keepOut.mp he).1
  · intro e he hne hdrop
    obtain ⟨hes, hout⟩ := mem_keepOut.mp he
    obtain ⟨f, hf, hfp, hft⟩ := hs.closure e hes hne hdrop
    refine ⟨f, mem_keepOut.mpr ⟨hf, ?_⟩, hfp, hft⟩
    intro hpf
    exact hout (hpf.trans (hfp ▸ List.dropLast_prefix e.path))
  · intro e he
    exact hs.rootFolder e (mem_keepOut.mp he).1

/-- In a well-formed store, an entry strictly below `p` guarantees an
entry exactly one level below `p` on its dirname chain; when that entry
is a strict ancestor it is a folder.  (Bounded recursion on the path
length.) -/
theorem closure_descend_aux :
    ∀ (k : Nat) {s : Store}, Inv s → ∀ {e : Entry}, e ∈ s →
      ∀ {p : Path}, e.path.length ≤ k → p <+: e.path → e.path ≠ p →
      ∃ f ∈ s, f.path = e.path.take (p.length + 1) ∧
        (f.path = e.path ∨ f.type = EType.folder) := by
  intro k
  induction k with
  | zero =>
      intro s hs e he p hlen hpre hne
      have h0 : e.path = [] := List.eq_nil_of_length_eq_zero (Nat.le_zero.mp hlen)
      rw [h0] at hpre hne
      exact absurd (List.prefix_nil.mp hpre).symm hne
  | succ k ih =>
      intro s hs e he p hlen hpre hne
      have hlt : p.length < e.path.length := by
        rcases Nat.lt_or_ge p.length e.path.length with h | h
        · exact h
        · exact absurd (hpre.eq_of_length_le h).symm hne
      by_cases hcase : e.path.length = p.length + 1
      · exact ⟨e, he, by rw [← hcase, List.take_length], Or.inl rfl⟩
      · have hlen2 : p.length + 1 < e.path.length :=
          Nat.lt_of_le_of_ne (Nat.succ_le_of_lt hlt) (fun h => hcase h.symm)
        have hnn : e.path ≠ [] := by
          intro h
          rw [h] at hlt
          exact absurd hlt (by simp)
        have hdln : e.path.dropLast ≠ [] := by
          apply List.ne_nil_of_length_pos
          rw [List.length_dropLast]
          omega
        obtain ⟨f', hf', hf'p, hf't⟩ := hs.closure e he hnn hdln
        have hdl_take : e.path.dropLast = e.path.take (e.path.length - 1) :=
          List.dropLast_eq_take e.path
        have hpre' : p <+: f'.path := by
          rw [hf'p, hdl_take]
          exact List.prefix_take_iff.mpr ⟨hpre, by omega⟩
        have hne' : f'.path ≠ p := by
          intro h
          have h1 : f'.path.length = e.path.length - 1 := by
            rw [hf'p, List.length_dropLast]
          rw [h] at h1
          omega
        have hlen' : f'.path.length ≤ k := by
          rw [hf'p, List.length_dropLast]
          omega
        obtain ⟨f'', hf'', hf''p, hdisj⟩ := ih hs hf' hlen' hpre' hne'
        refine ⟨f'', hf'', ?_, Or.inr ?_⟩
        · rw [hf''p, hf'p, hdl_take, List.take_take]
          congr 1
          omega
        · rcases hdisj with hpp | hft
          · have hff : f'' = f' :=
              entry_eq_of_path_eq hs.nodupPaths hf'' hf' hpp
            rw [hff]
            exact hf't
          · exact hft

theorem prefix_length_lt {p l : Path} (h : p <+: l) (hne : l ≠ p) :
    p.length < l.length := by
  rcases Nat.lt_or_ge p.length l.length with h1 | h1
  · exact h1
  · exact absurd (h.eq_of_length_le h1).symm hne

theorem take_succ_dropLast {l p : Path} (hpre : p <+: l) (hlt : p.length < l.length) :
    (l.take (p.length + 1)).dropLast = p := by
  rw [List.dropLast_eq_take, List.length_take, List.take_take]
  have hm : min (min (p.length + 1) l.length - 1) (p.length + 1) = p.length := by
    omega
  rw [hm]
  exact (List.prefix_iff_eq_take.mp hpre).symm

/-- The level-`|p|+1` entry on the dirname chain of a strict descendant:
it exists, is a child of `p` (its `parent` field is `p`), and its path
is a prefix of the descendant's. -/
theorem closure_child {s : Store} (hs : Inv s) {e : Entry} (he : e ∈ s)
    {p : Path} (hpre : p <+: e.path) (hne : e.path ≠ p) :
    ∃ f ∈ s, f.path = e.path.take (p.length + 1) ∧
      (f.path = e.path ∨ f.type = EType.folder) ∧
      f.parent = some p ∧ f.path <+: e.path := by
  obtain ⟨f, hf, hfp, hdisj⟩ :=
    closure_descend_aux e.path.length hs he le_rfl hpre hne
  have hlt : p.length < e.path.length := prefix_length_lt hpre hne
  have hfne : f.path ≠ [] := by
    apply List.ne_nil_of_length_pos
    rw [hfp, List.length_take]
    omega
  have hfd : f.path.dropLast = p := by
    rw [hfp]
    exact take_succ_dropLast hpre hlt
  have hparent : f.parent = some p := by
    rcases hs.parentEq f hf with ⟨h1, _⟩ | ⟨_, h2⟩
    · exact absurd h1 hfne
    · rw [h2, hfd]
  exact ⟨f, hf, hfp, hdisj, hparent, by rw [hfp]; exact List.take_prefix _ _⟩

/-- In a well-formed store, anything strictly below a non-root `p`
forces a folder record at `p` itself. -/
theorem folder_at_of_strict_desc {s : Store} (hs : Inv s) {e : Entry}
    (he : e ∈ s) {p : Path} (hpre : p <+: e.path) (hne : e.path ≠ p)
    (hp : p ≠ []) : ∃ g ∈ s, g.path = p ∧ g.type = EType.folder := by
  obtain ⟨f, hf, hfp, _, _, _⟩ := closure_child hs he hpre hne
  have hlt : p.length < e.path.length := prefix_length_lt hpre hne
  have hfne : f.path ≠ [] := by
    apply List.ne_nil_of_length_pos
    rw [hfp, List.length_take]
    omega
  have hfd : f.path.dropLast = p := by
    rw [hfp]
    exact take_succ_dropLast hpre hlt
  obtain ⟨g, hg, hgp, hgt⟩ := hs.closure f hf hfne (by rw [hfd]; exact hp)
  exact ⟨g, hg, by rw [hgp, hfd], hgt⟩

/-- Specification of the child-deletion loop: if each deletion realises
`keepOut`, the loop realises the conjunction of the `keepOut`s. -/
theorem runList_keepOut {f : Store → Path → Option Store}
    (hf : ∀ st q st', Inv st → (q ≠ [] ∨ (getE st q).isSome) →
      f st q = some st' → st' = keepOut q st) :
    ∀ (cs : List Entry) (s s' : Store), Inv s → (∀ c ∈ cs, c.path ≠ []) →
      runList f cs s = some s' →
      s' = s.filter (fun e => !(cs.any (fun c => decide (c.path <+: e.path)))) := by
  intro cs
  induction cs with
  | nil =>
      intro s s' hs _ h
      simp only [runList, Option.some.injEq] at h
      rw [← h]
      simp
  | cons c cs ih =>
      intro s s' hs hne h
      simp only [runList] at h
      cases hfc : f s c.path with
      | none =>
          rw [hfc] at h
          exact absurd h (by simp)
      | some st' =>
          rw [hfc] at h
          have h1 : st' = keepOut c.path s :=
            hf s c.path st' hs (Or.inl (hne c (by simp))) hfc
          have hinv' : Inv st' := by
            rw [h1]
            exact hs.keepOut c.path
          have h2 := ih st' s' hinv' (fun x hx => hne x (by simp [hx])) h
          rw [h2, h1, keepOut, List.filter_filter]
          apply List.filter_congr
          intro x _
          cases hc : decide (c.path <+: x.path) <;>
            cases ha : cs.any (fun c => decide (c.path <+: x.path)) <;>
              simp [List.any_cons, hc, ha]

/-- The central characterisation of the recursive `delete`: on a
well-formed store, an uninterrupted `delete(p)` (for `p` non-root or
present) removes exactly the records whose path has `p` as a prefix,
keeping everything else in order. -/
theorem deleteOp_eq_keepOut :
    ∀ (n : Nat) {s : Store} {p : Path} {s' : Store}, Inv s →
      (p ≠ [] ∨ (getE s p).isSome) → deleteOp n s p = some s' →
      s' = keepOut p s := by
  intro n
  induction n with
  | zero =>
      intro s p s' _ _ h
      exact absurd h (by simp [deleteOp])
  | succ n ih =>
      intro s p s' hs hp h
      cases hget : getE s p with
      | none =>
          simp only [deleteOp, hget] at h
          have hpn : p ≠ [] := by
            rcases hp with h1 | h1
            · exact h1
            · rw [hget] at h1
              exact absurd h1 (by simp)
          simp only [Option.some.injEq] at h
          rw [← h, keepOut]
          symm
          apply List.filter_eq_self.mpr
          intro e he
          simp only [Bool.not_eq_eq_eq_not, Bool.not_true, decide_eq_false_iff_not]
          intro hpe
          by_cases heq : e.path = p
          · exact getE_eq_none.mp hget e he heq
          · obtain ⟨g, hg, hgp, _⟩ := folder_at_of_strict_desc hs he hpe heq hpn
            exact getE_eq_none.mp hget g hg hgp
      | some item =>
          simp only [deleteOp, hget] at h
          obtain ⟨hitem, hitemp⟩ := mem_of_getE hget
          by_cases htype : item.type = EType.folder
          · rw [if_pos htype] at h
            cases hrun : runList (deleteOp n) (listE s p) s with
            | none =>
                rw [hrun] at h
                exact absurd h (by simp)
            | some s₁ =>
                rw [hrun] at h
                simp only [Option.some.injEq] at h
                have hchild : ∀ c ∈ listE s p, c.path ≠ [] := by
                  intro c hc
                  obtain ⟨hcs, hcp⟩ := mem_listE.mp hc
                  rcases hs.parentEq c hcs with ⟨_, hnone⟩ | ⟨hne', _⟩
                  · rw [hnone] at hcp
                    exact absurd hcp (by simp)
                  · exact hne'
                have h1 := runList_keepOut (fun st q st' hst hq hfq => ih hst hq hfq)
                  (listE s p) s s₁ hs hchild hrun
                rw [← h, h1, eraseE, keepOut, List.filter_filter]
                apply List.filter_congr
                intro e he
                rw [Bool.eq_iff_iff]
                simp only [Bool.and_eq_true, decide_eq_true_eq,
                  Bool.not_eq_true', List.any_eq_false,
                  decide_eq_false_iff_not, ne_eq]
                constructor
                · rintro ⟨hane, hnosub⟩ hpe
                  by_cases heq : e.path = p
                  · exact hane heq
                  · obtain ⟨ff, hff, _, _, hffpar, hffpre⟩ :=
                      closure_child hs he hpe heq
                    exact hnosub ff (mem_listE.mpr ⟨hff, hffpar⟩) hffpre
                · intro hnpe
                  constructor
                  · intro heq
                    exact hnpe (heq ▸ List.prefix_refl p)
                  · intro c hc hce
                    obtain ⟨hcs, hcp⟩ := mem_listE.mp hc
                    have hcd : c.path.dropLast = p := by
                      rcases hs.parentEq c hcs with ⟨_, hnone⟩ | ⟨_, hsome⟩
                      · rw [hnone] at hcp
                        exact absurd hcp (by simp)
                      · rw [hsome] at hcp
                        exact Option.some.inj hcp
                    have hpc : p <+: c.path := by
                      rw [← hcd]
                      exact List.dropLast_prefix c.path
                    exact hnpe (hpc.trans hce)
          · rw [if_neg htype] at h
            simp only [Option.some.injEq] at h
            have hpn : p ≠ [] := by
              intro hp0
              exact htype (hs.rootFolder item hitem (hitemp.trans hp0))
            rw [← h, eraseE, keepOut]
            apply List.filter_congr
            intro e he
            rw [Bool.eq_iff_iff]
            simp only [decide_eq_true_eq, Bool.not_eq_eq_eq_not, Bool.not_true,
              decide_eq_false_iff_not, ne_eq]
            constructor
            · intro hne hpe
              obtain ⟨g, hg, hgp, hgt⟩ :=
                folder_at_of_strict_desc hs he hpe hne hpn
              have hgi : g = item :=
                entry_eq_of_path_eq hs.nodupPaths hg hitem (hgp.trans hitemp.symm)
              exact htype (hgi ▸ hgt)
            · intro hnpe heq
              exact hnpe (heq ▸ List.prefix_refl p)

/-- A successful `add` appends the record and certifies the key was free. -/
theorem addE_some {s : Store} {e : Entry} {s' : Store}
    (h : addE s e = some s') : s' = s ++ [e] ∧ getE s e.path = none := by
  rw [addE] at h
  cases hg : getE s e.path with
  | some _ =>
      rw [hg] at h
      exact absurd h (by simp)
  | none =>
      rw [hg] at h
      exact ⟨(Option.some.inj h).symm, rfl⟩

/-- A successful `delete(p)` leaves no record keyed `p`, with no
assumption on the store: the last step of the present-branch is the
key-delete of `p`, and the absent-branch already had none. -/
theorem getE_after_delete :
    ∀ (n : Nat) {s : Store} {p : Path} {s' : Store},
      deleteOp n s p = some s' → getE s' p = none := by
  intro n s p s' h
  cases n with
  | zero => exact absurd h (by simp [deleteOp])
  | succ n =>
      cases hget : getE s p with
      | none =>
          simp only [deleteOp, hget, Option.some.injEq] at h
          rw [← h]
          exact hget
      | some item =>
          simp only [deleteOp, hget] at h
          cases hrun : (if item.type = EType.folder
              then runList (deleteOp n) (listE s p) s else some s) with
          | none =>
              rw [hrun] at h
              exact absurd h (by simp)
          | some s₁ =>
              rw [hrun] at h
              simp only [Option.some.injEq] at h
              rw [← h]
              apply getE_eq_none.mpr
              intro e he
              have := List.mem_filter.mp he
              simpa using this.2

/-- Every hit returned by `search` is a record of the store. -/
theorem searchChildList_subset {s : Store} {f : Path → Option (List Entry)}
    {q : String} (hf : ∀ p' r, f p' = some r → ∀ e ∈ r, e ∈ s) :
    ∀ {cs : List Entry} {res : List Entry}, (∀ c ∈ cs, c ∈ s) →
      searchChildList f q cs = some res → ∀ e ∈ res, e ∈ s := by
  intro cs
  induction cs with
  | nil =>
      intro res _ h e he
      simp only [searchChildList, Option.some.injEq] at h
      rw [← h] at he
      exact absurd he (by simp)
  | cons it rest ih =>
      intro res hcs h e he
      simp only [searchChildList] at h
      cases hsub : (if it.type = EType.folder then f it.path else some []) with
      | none =>
          rw [hsub] at h
          exact absurd h (by simp)
      | some sub =>
          rw [hsub] at h
          cases htail : searchChildList f q rest with
          | none =>
              rw [htail] at h
              exact absurd h (by simp)
          | some tail =>
              rw [htail] at h
              simp only [Option.some.injEq] at h
              rw [← h] at he
              rcases List.mem_append.mp he with h1 | h1
              · rcases List.mem_append.mp h1 with h2 | h2
                · by_cases hhit : strIncludes (lowerStr it.name) (lowerStr q)
                  · rw [if_pos hhit] at h2
                    have : e = it := by simpa using h2
                    exact this ▸ hcs it (by simp)
                  · rw [if_neg hhit] at h2
                    exact absurd h2 (by simp)
                · by_cases hfol : it.type = EType.folder
                  · rw [if_pos hfol] at hsub
                    exact hf it.path sub hsub e h2
                  · rw [if_neg hfol] at hsub
                    have : sub = [] := by simpa using hsub.symm
                    rw [this] at h2
                    exact absurd h2 (by simp)
              · exact ih (fun c hc => hcs c (by simp [hc])) htail e h1

/-- Every hit returned by `search` is a record of the store. -/
theorem searchOp_subset :
    ∀ (n : Nat) {s : Store} {q : String} {p : Path} {res : List Entry},
      searchOp n s q p = some res → ∀ e ∈ res, e ∈ s := by
  intro n
  induction n with
  | zero =>
      intro s q p res h
      exact absurd h (by simp [searchOp])
  | succ n ih =>
      intro s q p res h
      simp only [searchOp] at h
      refine searchChildList_subset (fun p' r hr => ih hr) ?_ h
      intro c hc
      exact (mem_listE.mp hc).1

/-!
## Claim C7 — idempotent delete
-/

/-- **C7** (confirmed): `delete(p)` on a non-existent path is a no-op
that resolves without error and leaves the store unchanged, and after
any successful `delete(p)` the path is gone, so a second `delete(p)`
resolves as a no-op with the store unchanged — two deletes in a row
end in the same state as one. -/
theorem delete_idempotent (n m : Nat) (s : Store) (p : Path) :
    (getE s p = none → deleteOp (n + 1) s p = some s) ∧
    (∀ s', deleteOp n s p = some s' → deleteOp (m + 1) s' p = some s') := by
  constructor
  · intro h
    simp [deleteOp, h]
  · intro s' h
    have h0 := getE_after_delete n h
    simp [deleteOp, h0]

/-- Witness for C7: deleting the absent `/x` from the empty store is a
no-op, and re-deleting `/A` right after `delete('/A')` emptied `stA` is
a no-op on the empty store. -/
theorem delete_idempotent_witness :
    deleteOp 1 ([] : Store) ["x"] = some ([] : Store) ∧
      deleteOp 1 ([] : Store) ["A"] = some ([] : Store) := by
  have h1 : getE ([] : Store) ["x"] = none := by decide
  have h2 : deleteOp 4 stA ["A"] = some [] := by decide
  exact ⟨(delete_idempotent 0 0 [] ["x"]).1 h1,
    (delete_idempotent 4 0 stA ["A"]).2 [] h2⟩

/-!
## Claim C5 — recursive delete completeness
-/

/-- **C5** (confirmed): after an uninterrupted `delete(folderPath)` of a
folder of a well-formed store, `list(folderPath)` is empty, no record of
the store has a path at or below `folderPath`, every subsequent
`search("", root)` (from any root) returns no entry whose path lies
under `folderPath`, and one step of `delete` is literally the child
deletions followed by erasing the folder's own record (children first,
folder last). -/
theorem delete_recursive_complete {n : Nat} {s : Store} {p : Path}
    {s' : Store} {item : Entry} (hs : Inv s) (hget : getE s p = some item)
    (htype : item.type = EType.folder) (hdel : deleteOp n s p = some s') :
    listE s' p = [] ∧ (∀ e ∈ s', ¬(p <+: e.path)) ∧
      (∀ (m : Nat) (root : Path) (res : List Entry),
          searchOp m s' "" root = some res → ∀ e ∈ res, ¬(p <+: e.path)) ∧
      (∀ (k : Nat), deleteOp (k + 1) s p =
          Option.map (fun st => eraseE st p)
            (runList (deleteOp k) (listE s p) s)) := by
  have hchar := deleteOp_eq_keepOut n hs (Or.inr (by simp [hget])) hdel
  refine ⟨?_, ?_, ?_, ?_⟩
  · rw [hchar, listE]
    apply List.filter_eq_nil_iff.mpr
    intro e he
    obtain ⟨hes, hout⟩ := mem_keepOut.mp he
    simp only [decide_eq_true_eq]
    intro hpar
    rcases hs.parentEq e hes with ⟨_, hnone⟩ | ⟨_, hsome⟩
    · rw [hnone] at hpar
      exact absurd hpar (by simp)
    · rw [hsome] at hpar
      have hd : e.path.dropLast = p := Option.some.inj hpar
      exact hout (hd ▸ List.dropLast_prefix e.path)
  · intro e he
    rw [hchar] at he
    exact (mem_keepOut.mp he).2
  · intro m root res hsr e he
    have hes' : e ∈ s' := searchOp_subset m hsr e he
    rw [hchar] at hes'
    exact (mem_keepOut.mp hes').2
  · intro k
    cases hr : runList (deleteOp k) (listE s p) s <;>
      simp [deleteOp, hget, htype, hr]

/-- Witness for C5, at `delete('/A')` on `stA`. -/
theorem delete_recursive_complete_witness :
    listE ([] : Store) ["A"] = [] ∧ (∀ e ∈ ([] : Store), ¬(["A"] <+: e.path)) ∧
      (∀ (m : Nat) (root : Path) (res : List Entry),
          searchOp m ([] : Store) "" root = some res →
            ∀ e ∈ res, ¬(["A"] <+: e.path)) ∧
      (∀ (k : Nat), deleteOp (k + 1) stA ["A"] =
          Option.map (fun st => eraseE st ["A"])
            (runList (deleteOp k) (listE stA ["A"]) stA)) :=
  @delete_recursive_complete 5 stA ["A"] [] (mkFolderE ["A"])
    ⟨by decide, by decide, by decide, by decide⟩ (by decide) (by decide)
    (by decide)

/-!
## Claim C1 — rename of a folder with children
-/

/-- **C1** (counterexample to the claim as stated): renaming folder
`/A` — which has the child `/A/f.txt` — to `B` leaves a store holding
*only* the renamed folder record: the descendant `/A/f.txt` is *not*
retained.  `rename` calls the recursive `delete(oldPath)`, which removes
the folder's whole subtree before the renamed record is inserted. -/
theorem rename_orphan_claim_cex :
    renameOp 5 stA ["A"] "B" 7 = Res.ok (stA_renamed, [stA_renamed]) ∧
      (∀ d ∈ [stA_renamed], d.path ≠ ["A", "f.txt"]) := by
  decide

/-- **C1** (amended): for a present entry, `rename(p, newName)` removes
the record at `p` *and every record whose path lies below `p`* (the
recursive `delete` cascades to all descendants), then inserts the single
new record with updated `path`/`name`/`modified`; afterwards every
record is either the new one or lies outside the old subtree. -/
theorem rename_folder_cascades {n : Nat} {s : Store} {p : Path}
    {nm : String} {now : Nat} {e' : Entry} {s' : Store} {item : Entry}
    (hs : Inv s) (hget : getE s p = some item)
    (hres : renameOp n s p nm now = Res.ok (e', s')) :
    e' = { item with path := p.dropLast ++ [nm], name := nm,
                     modified := now } ∧
      s' = keepOut p s ++ [e'] ∧
      (∀ d ∈ s', d = e' ∨ ¬(p <+: d.path)) := by
  cases n with
  | zero => exact absurd hres (by simp [renameOp])
  | succ n =>
      cases hdel : deleteOp n s p with
      | none =>
          simp only [renameOp, hget, hdel] at hres
          exact absurd hres (by simp)
      | some s₁ =>
          simp only [renameOp, hget, hdel] at hres
          have hchar := deleteOp_eq_keepOut n hs (Or.inr (by simp [hget])) hdel
          cases hadd : addE s₁
              { item with path := p.dropLast ++ [nm], name := nm,
                          modified := now } with
          | none =>
              rw [hadd] at hres
              exact absurd hres (by simp)
          | some s₂ =>
              rw [hadd] at hres
              simp only [Res.ok.injEq, Prod.mk.injEq] at hres
              obtain ⟨he', hs2⟩ := hres
              obtain ⟨hs2', _⟩ := addE_some hadd
              refine ⟨he'.symm, ?_, ?_⟩
              · rw [← hs2, hs2', hchar, ← he']
              · intro d hd
                rw [← hs2, hs2', hchar] at hd
                rcases List.mem_append.mp hd with h1 | h1
                · exact Or.inr (mem_keepOut.mp h1).2
                · exact Or.inl (by rw [← he']; simpa using h1)

/-- Witness for C1's amended statement, at `rename('/A', 'B')` on `stA`. -/
theorem rename_folder_cascades_witness :
    stA_renamed = { mkFolderE ["A"] with
        path := List.dropLast ["A"] ++ ["B"], name := "B", modified := 7 } ∧
      [stA_renamed] = keepOut ["A"] stA ++ [stA_renamed] ∧
      (∀ d ∈ [stA_renamed], d = stA_renamed ∨ ¬(["A"] <+: d.path)) :=
  @rename_folder_cascades 5 stA ["A"] "B" 7 stA_renamed [stA_renamed]
    (mkFolderE ["A"]) ⟨by decide, by decide, by decide, by decide⟩
    (by decide) (by decide)

/-!
## Lookup after `put`
-/

theorem getE_cons {a : Entry} {s : Store} {p : Path} :
    getE (a :: s) p = if a.path = p then some a else getE s p := by
  by_cases h : a.path = p
  · rw [if_pos h, getE, List.find?_cons_of_pos]
    simp [h]
  · rw [if_neg h, getE, List.find?_cons_of_neg, getE]
    simp [h]

theorem getE_append_single {s : Store} {e : Entry}
    (h : getE s e.path = none) : getE (s ++ [e]) e.path = some e := by
  induction s with
  | nil => simp [getE]
  | cons a as ih =>
      rw [List.cons_append, getE_cons]
      rw [getE_cons] at h
      by_cases ha : a.path = e.path
      · rw [if_pos ha] at h
        exact absurd h (by simp)
      · rw [if_neg ha] at h
        rw [if_neg ha]
        exact ih h

theorem getE_map_put {s : Store} {e : Entry} (h : (getE s e.path).isSome) :
    getE (s.map (fun x => if x.path = e.path then e else x)) e.path =
      some e := by
  induction s with
  | nil => simp [getE] at h
  | cons a as ih =>
      rw [List.map_cons, getE_cons]
      by_cases ha : a.path = e.path
      · have hfa : (if a.path = e.path then e else a) = e := if_pos ha
        simp [hfa]
      · have hfa : (if a.path = e.path then e else a) = a := if_neg ha
        rw [hfa, if_neg ha]
        apply ih
        rw [getE_cons, if_neg ha] at h
        exact h

/-- `put` really persists: looking the record's key up afterwards
returns the record. -/
theorem getE_putE (s : Store) (e : Entry) : getE (putE s e) e.path = some e := by
  cases hg : getE s e.path with
  | none =>
      simp only [putE, hg]
      exact getE_append_single hg
  | some x =>
      simp only [putE, hg]
      exact getE_map_put (by simp [hg])

/-!
## Claim C2 — updateFile on a missing path
-/

/-- **C2** (counterexample to the claim as stated): `updateFile` on the
absent path `/nope` *resolves normally* with the JS value `null`
(modelled `Option.none`) and the untouched store — the promise is not
rejected, and no typed `NotFound` failure exists anywhere on this code
path; the claim's "typed failure, not a normal return value" is false. -/
theorem updateFile_missing_null_cex :
    updateFile stF ["nope"] {} 5 = (none, stF) := by
  decide

/-- **C2** (amended): on an absent path `updateFile` returns `null` (a
normal resolution, with the store untouched); on a present path it
merges the given fields over the record, stamps `modified := now`,
persists the result (a later `get` of the path returns it), and returns
the updated entry. -/
theorem updateFile_spec (s : Store) (p : Path) (u : Updates) (now : Nat) :
    (getE s p = none → updateFile s p u now = (none, s)) ∧
    (∀ item, getE s p = some item →
        updateFile s p u now =
          (some (applyUpdates item u now), putE s (applyUpdates item u now)) ∧
        (applyUpdates item u now).modified = now ∧
        getE (putE s (applyUpdates item u now)) p =
          some (applyUpdates item u now)) := by
  constructor
  · intro h
    simp [updateFile, h]
  · intro item h
    refine ⟨by simp [updateFile, h], rfl, ?_⟩
    have hp : (applyUpdates item u now).path = p := (mem_of_getE h).2
    rw [← hp]
    exact getE_putE s (applyUpdates item u now)

/-- Witness for C2's amended statement, updating `/f` in `stF`. -/
theorem updateFile_spec_witness :
    updateFile stF ["f"] { content := some "xyz" } 4 =
      (some (applyUpdates (mkFileE ["f"] "ab") { content := some "xyz" } 4),
        putE stF (applyUpdates (mkFileE ["f"] "ab") { content := some "xyz" } 4)) ∧
      (applyUpdates (mkFileE ["f"] "ab") { content := some "xyz" } 4).modified = 4 ∧
      getE (putE stF (applyUpdates (mkFileE ["f"] "ab") { content := some "xyz" } 4))
          ["f"] =
        some (applyUpdates (mkFileE ["f"] "ab") { content := some "xyz" } 4) :=
  (updateFile_spec stF ["f"] { content := some "xyz" } 4).2
    (mkFileE ["f"] "ab") (by decide)

/-!
## Claim C3 — copy collision suffixes
-/

/-- **C3** (counterexample to the claim as stated): when `notes.txt`
*and* `notes (1).txt` both already exist under `/A`, the next
`copy('/B/notes.txt', '/A')` is named `"notes (1) (2).txt"` — the loop
re-splits the previously tried candidate, so the suffix compounds — not
`"notes (2).txt"` as the claim predicts; no record of the resulting
store bears that name. -/
theorem copy_second_collision_cex :
    copyOp 9 stCopy2 ["B", "notes.txt"] ["A"] 9 =
        Res.ok (cpN12, stCopy2 ++ [cpN12]) ∧
      cpN12.name ≠ "notes (2).txt" ∧
      (∀ r ∈ stCopy2 ++ [cpN12], r.name ≠ "notes (2).txt") := by
  decide

/-- **C3** (amended): with `notes.txt` under `/A`,
`copy('/B/notes.txt', '/A')` yields a new record named
`"notes (1).txt"` with a distinct path and the same content; if
`notes (1).txt` is also taken, the next copy tries suffixes on the
previously tried candidate name, yielding `"notes (1) (2).txt"` (the
counter suffix compounds rather than replacing). -/
theorem copy_collision_names :
    copyOp 9 stCopy ["B", "notes.txt"] ["A"] 9 =
        Res.ok (cpN1, stCopy ++ [cpN1]) ∧
      cpN1.name = "notes (1).txt" ∧ cpN1.path ≠ ["B", "notes.txt"] ∧
      cpN1.content = (mkFileE ["B", "notes.txt"] "hello").content ∧
      copyOp 9 stCopy2 ["B", "notes.txt"] ["A"] 9 =
        Res.ok (cpN12, stCopy2 ++ [cpN12]) ∧
      cpN12.name = "notes (1) (2).txt" := by
  decide

/-!
## Claim C4 — `size` versus content length
-/

/-- **C4** (counterexample to the claim as stated): `/f` holds content
`"ab"` with `size = 2`; after `updateFile('/f', {content: "abcd"})` the
persisted record carries the new content but still `size = 2`, which is
not the length `4` of the new content — `updateFile` never recomputes
`size`. -/
theorem updateFile_stale_size_cex :
    ((updateFile stF ["f"] { content := some "abcd" } 9).1.map Entry.content =
        some (some "abcd")) ∧
      ((updateFile stF ["f"] { content := some "abcd" } 9).1.map Entry.size =
        some 2) ∧
      2 ≠ "abcd".length := by
  decide

/-- **C4** (amended): `createFile` sets `size` to the content length;
`updateFile` merges the given fields verbatim and does *not* recompute
`size` from `content` — an update carrying `content` but no `size`
keeps the old `size`, and `size` changes only when the update carries a
`size` field (as the in-repo editor does). -/
theorem size_tracks_create_not_update :
    (∀ (s : Store) (parent : Path) (nm content : String) (now : Nat)
        (e : Entry) (s' : Store),
        createFile s parent nm content now = some (e, s') →
          e.size = content.length) ∧
    (∀ (s : Store) (p : Path) (u : Updates) (now : Nat) (item : Entry),
        getE s p = some item → u.size = none →
          (updateFile s p u now).1 = some (applyUpdates item u now) ∧
          (applyUpdates item u now).size = item.size) ∧
    (∀ (u : Updates) (now : Nat) (item : Entry) (z : Nat),
        u.size = some z → (applyUpdates item u now).size = z) := by
  refine ⟨?_, ?_, ?_⟩
  · intro s parent nm content now e s' h
    simp only [createFile, Option.map_eq_some'] at h
    obtain ⟨s₀, _, hpair⟩ := h
    have he : e.size = content.length := by
      have := congrArg (fun r => r.1.size) hpair
      simpa using this.symm
    exact he
  · intro s p u now item h hu
    refine ⟨by simp [updateFile, h], ?_⟩
    simp [applyUpdates, hu]
  · intro u now item z hu
    simp [applyUpdates, hu]

/-- Witness for C4's amended statement. -/
theorem size_tracks_create_not_update_witness :
    newHi.size = "hi".length ∧
      (updateFile stF ["f"] { content := some "abcd" } 9).1 =
        some (applyUpdates (mkFileE ["f"] "ab") { content := some "abcd" } 9) ∧
      (applyUpdates (mkFileE ["f"] "ab") { content := some "abcd" } 9).size =
        (mkFileE ["f"] "ab").size ∧
      (applyUpdates (mkFileE ["f"] "ab") { size := some 7 } 9).size = 7 := by
  have h1 := size_tracks_create_not_update.1 [] ["A"] "n.txt" "hi" 0 newHi
    ([] ++ [newHi]) (by decide)
  have h2 := size_tracks_create_not_update.2.1 stF ["f"]
    { content := some "abcd" } 9 (mkFileE ["f"] "ab") (by decide) (by decide)
  have h3 := size_tracks_create_not_update.2.2
    { size := some 7 } 9 (mkFileE ["f"] "ab") 7 (by decide)
  exact ⟨h1, h2.1, h2.2, h3⟩

/-!
## Claim C10 — creation never checks the parent
-/

/-- **C10** (confirmed): `createFolder`/`createFile` succeed exactly when
the computed path is free — the parent string is never looked up, no
`NotFound`-style failure exists for a missing parent, the new record
carries the given string as its `parent` field, and a record created
under a non-existent parent is unreachable by the parent-index walk
(`search("", "/")` does not return it). -/
theorem create_ignores_parent :
    (∀ (s : Store) (parent : Path) (nm : String) (now : Nat),
        ((createFolder s parent nm now).isSome ↔
          getE s (childPath parent nm) = none) ∧
        (∀ e s', createFolder s parent nm now = some (e, s') →
            e.parent = some parent ∧ e.path = childPath parent nm ∧
              s' = s ++ [e])) ∧
    (∀ (s : Store) (parent : Path) (nm content : String) (now : Nat),
        ((createFile s parent nm content now).isSome ↔
          getE s (childPath parent nm) = none) ∧
        (∀ e s', createFile s parent nm content now = some (e, s') →
            e.parent = some parent ∧ e.path = childPath parent nm ∧
              s' = s ++ [e])) ∧
    (∃ e s', createFile [mkFolderE ["A"]] ["Z"] "f.txt" "" 0 = some (e, s') ∧
        searchOp 9 s' "" [] = some [mkFolderE ["A"]] ∧ e ∉ [mkFolderE ["A"]]) := by
  refine ⟨?_, ?_, ⟨orphanZ, [mkFolderE ["A"], orphanZ],
    by decide, by decide, by decide⟩⟩
  · intro s parent nm now
    cases hg : getE s (childPath parent nm) with
    | some x =>
        constructor
        · simp [createFolder, addE, hg]
        · intro e s' h
          simp [createFolder, addE, hg] at h
    | none =>
        constructor
        · simp [createFolder, addE, hg]
        · intro e s' h
          simp only [createFolder, addE, hg, Option.map_some',
            Option.some.injEq, Prod.mk.injEq] at h
          obtain ⟨he, hs⟩ := h
          rw [← he, ← hs]
          exact ⟨rfl, rfl, rfl⟩
  · intro s parent nm content now
    cases hg : getE s (childPath parent nm) with
    | some x =>
        constructor
        · simp [createFile, addE, hg]
        · intro e s' h
          simp [createFile, addE, hg] at h
    | none =>
        constructor
        · simp [createFile, addE, hg]
        · intro e s' h
          simp only [createFile, addE, hg, Option.map_some',
            Option.some.injEq, Prod.mk.injEq] at h
          obtain ⟨he, hs⟩ := h
          rw [← he, ← hs]
          exact ⟨rfl, rfl, rfl⟩

/-- Witness for C10: creating a folder under the non-existent parent
`/ghost` in the empty store succeeds. -/
theorem create_ignores_parent_witness :
    (createFolder ([] : Store) ["ghost"] "d" 0).isSome :=
  (create_ignores_parent.1 ([] : Store) ["ghost"] "d" 0).1.mpr (by decide)

/-!
## Claim C6 — move conservation
-/

/-- The collision loop only ever answers with a path that is free in
the store and equal to `destParent ++ [name]`. -/
theorem freeName_spec :
    ∀ (fuel : Nat) {s : Store} {d : Path} {nm : String} {k : Nat}
      {nm' : String} {np' : Path},
      freeName fuel s d nm k = some (nm', np') →
      np' = childPath d nm' ∧ getE s np' = none := by
  intro fuel
  induction fuel with
  | zero =>
      intro s d nm k nm' np' h
      exact absurd h (by simp [freeName])
  | succ n ih =>
      intro s d nm k nm' np' h
      cases hg : getE s (childPath d nm) with
      | none =>
          simp only [freeName, hg, Option.some.injEq, Prod.mk.injEq] at h
          obtain ⟨h1, h2⟩ := h
          rw [← h1, ← h2]
          exact ⟨rfl, hg⟩
      | some _ =>
          simp only [freeName, hg] at h
          exact ih h

theorem getE_append_left {s t : Store} {p : Path} {x : Entry}
    (h : getE s p = some x) : getE (s ++ t) p = some x := by
  induction s with
  | nil => exact absurd h (by simp [getE])
  | cons a as ih =>
      rw [List.cons_append, getE_cons]
      rw [getE_cons] at h
      by_cases ha : a.path = p
      · rw [if_pos ha] at h ⊢
        exact h
      · rw [if_neg ha] at h ⊢
        exact ih h

/-- **C6** (counterexample to the claim as stated): `/C` already holds
`/C/y` with content `"hello"`; after `move('/x', '/C')` of the file
`/x` (same content), *two* entries under `/C` carry the original
content, not exactly one. -/
theorem move_duplicate_content_cex :
    moveOp 9 stMove ["x"] ["C"] 9 =
        Res.ok (movedX, [mkFolderE ["C"], mkFileE ["C", "y"] "hello", movedX]) ∧
      (([mkFolderE ["C"], mkFileE ["C", "y"] "hello", movedX].filter
          (fun e => e.parent = some ["C"] ∧ e.content = some "hello")).length
        = 2) ∧ 2 ≠ 1 := by
  decide

/-- **C6** (amended): for an existing *file* entry, provided no other
record directly under `destParent` already carries the same content, an
uninterrupted `move(p, destParent)` (which is `copy` followed by
`delete` of the original) leaves exactly one record directly under
`destParent` carrying the original content — the copied one — and no
record at the old path. -/
theorem move_conservation_file {n : Nat} {s : Store} {src destParent : Path}
    {now : Nat} {item copied : Entry} {s₂ : Store}
    (hget : getE s src = some item) (htype : item.type = EType.file)
    (huniq : ∀ e ∈ s, e.parent = some destParent →
        e.content = item.content → e.path = src)
    (hres : moveOp n s src destParent now = Res.ok (copied, s₂)) :
    copied.parent = some destParent ∧ copied.content = item.content ∧
      getE s₂ src = none ∧ copied ∈ s₂ ∧
      (s₂.filter (fun e => e.parent = some destParent ∧
          e.content = item.content)).length = 1 := by
  cases hcopy : copyOp n s src destParent now with
  | interrupted => simp [moveOp, hcopy] at hres
  | nullRes =>
      simp only [moveOp, hcopy] at hres
      cases hd : deleteOp n s src <;> simp [hd] at hres
  | errRes => simp [moveOp, hcopy] at hres
  | ok pr =>
      obtain ⟨c₀, s₁⟩ := pr
      simp only [moveOp, hcopy] at hres
      cases hdel : deleteOp n s₁ src with
      | none =>
          rw [hdel] at hres
          exact absurd hres (by simp)
      | some s₂' =>
          rw [hdel] at hres
          simp only [Res.ok.injEq, Prod.mk.injEq] at hres
          obtain ⟨hc, hs2⟩ := hres
          cases n with
          | zero => exact absurd hcopy (by simp [copyOp])
          | succ m =>
              cases hfn : freeName (m + 1) s destParent item.name 1 with
              | none =>
                  simp only [copyOp, hget, hfn] at hcopy
                  exact absurd hcopy (by simp)
              | some pr' =>
                  obtain ⟨nm, npath⟩ := pr'
                  have hnf : ¬(item.type = EType.folder) := by
                    rw [htype]
                    simp
                  simp only [copyOp, hget, hfn, if_neg hnf] at hcopy
                  cases hadd : addE s
                      { item with path := npath, name := nm,
                                  parent := some destParent,
                                  created := now, modified := now } with
                  | none =>
                      rw [hadd] at hcopy
                      exact absurd hcopy (by simp)
                  | some s₁' =>
                      rw [hadd] at hcopy
                      simp only [Res.ok.injEq, Prod.mk.injEq] at hcopy
                      obtain ⟨hc0, hs1⟩ := hcopy
                      obtain ⟨hs1app, hfree0⟩ := addE_some hadd
                      obtain ⟨hnp, hfree⟩ := freeName_spec (m + 1) hfn
                      have hnsrc : npath ≠ src := by
                        intro hcon
                        rw [hcon, hget] at hfree
                        exact absurd hfree (by simp)
                      have hcopied : copied =
                          { item with path := npath, name := nm,
                                      parent := some destParent,
                                      created := now, modified := now } := by
                        rw [← hc, ← hc0]
                      have hs1c : s₁ = s ++ [copied] := by
                        rw [← hs1, hs1app, hcopied]
                      have hget1 : getE s₁ src = some item := by
                        rw [← hs1, hs1app]
                        exact getE_append_left hget
                      have hdel' : s₂' = eraseE s₁ src := by
                        simp only [deleteOp, hget1, if_neg hnf] at hdel
                        exact (Option.some.inj hdel).symm
                      have hs2' : s₂ = eraseE (s ++ [copied]) src := by
                        rw [← hs2, hdel', hs1c]
                      have hcp : copied.path = npath := by
                        rw [hcopied]
                      have hcpar : copied.parent = some destParent := by
                        rw [hcopied]
                      have hccon : copied.content = item.content := by
                        rw [hcopied]
                      refine ⟨hcpar, hccon, ?_, ?_, ?_⟩
                      · rw [← hs2]
                        exact getE_after_delete (m + 1) hdel
                      · rw [hs2', eraseE]
                        refine List.mem_filter.mpr ⟨by simp, ?_⟩
                        simp [hcp, hnsrc]
                      · rw [hs2', eraseE, List.filter_filter]
                        simp only [List.filter_append]
                        have hleft : ∀ x ∈ s,
                            ¬((decide (x.parent = some destParent ∧
                                x.content = item.content) &&
                              decide (x.path ≠ src)) = true) := by
                          intro x hx hcond
                          simp only [Bool.and_eq_true, decide_eq_true_eq,
                            ne_eq] at hcond
                          exact hcond.2 (huniq x hx hcond.1.1 hcond.1.2)
                        rw [List.filter_eq_nil_iff.mpr hleft]
                        simp [hcpar, hccon, hcp, hnsrc]

/-- Witness for C6's amended statement, moving `/x` into `/C` with no
same-content neighbour present. -/
theorem move_conservation_file_witness :
    movedX.parent = some ["C"] ∧
      movedX.content = (mkFileE ["x"] "hello").content ∧
      getE [mkFolderE ["C"], movedX] ["x"] = none ∧
      movedX ∈ [mkFolderE ["C"], movedX] ∧
      (([mkFolderE ["C"], movedX]).filter
          (fun e => e.parent = some ["C"] ∧
            e.content = (mkFileE ["x"] "hello").content)).length = 1 :=
  @move_conservation_file 9 stMoveOk ["x"] ["C"] 9 (mkFileE ["x"] "hello")
    movedX [mkFolderE ["C"], movedX] (by decide) (by decide) (by decide)
    (by decide)

/-!
## Claim C8 — search membership and order
-/

/-- Characterisation of one level of the search walk, parametric in the
recursive call's specification `G`. -/
theorem searchChildList_mem {f : Path → Option (List Entry)} {q : String}
    (G : Path → Entry → Prop)
    (hf : ∀ p' r, f p' = some r → ∀ e, e ∈ r ↔ G p' e) :
    ∀ {cs : List Entry} {res : List Entry},
      searchChildList f q cs = some res →
      ∀ e, e ∈ res ↔ ∃ c ∈ cs,
        (e = c ∧ strIncludes (lowerStr c.name) (lowerStr q) = true) ∨
        (c.type = EType.folder ∧ G c.path e) := by
  intro cs
  induction cs with
  | nil =>
      intro res h e
      simp only [searchChildList, Option.some.injEq] at h
      rw [← h]
      simp
  | cons it rest ih =>
      intro res h e
      simp only [searchChildList] at h
      cases hsub : (if it.type = EType.folder then f it.path else some []) with
      | none =>
          rw [hsub] at h
          exact absurd h (by simp)
      | some sub =>
          rw [hsub] at h
          cases htail : searchChildList f q rest with
          | none =>
              rw [htail] at h
              exact absurd h (by simp)
          | some tail =>
              rw [htail] at h
              simp only [Option.some.injEq] at h
              rw [← h]
              have htl := ih htail e
              have hsubiff : e ∈ sub ↔
                  (it.type = EType.folder ∧ G it.path e) := by
                by_cases hfol : it.type = EType.folder
                · rw [if_pos hfol] at hsub
                  simp [hfol, hf it.path sub hsub e]
                · rw [if_neg hfol] at hsub
                  have hnil : sub = ([] : List Entry) := by
                    simpa using hsub.symm
                  simp [hnil, hfol]
              have hhit : e ∈ (if strIncludes (lowerStr it.name) (lowerStr q)
                    then [it] else ([] : List Entry)) ↔
                  (e = it ∧ strIncludes (lowerStr it.name) (lowerStr q)
                    = true) := by
                by_cases hq : strIncludes (lowerStr it.name) (lowerStr q)
                · simp [hq]
                · simp [hq]
              simp only [List.mem_append, hsubiff, hhit, htl,
                List.exists_mem_cons_iff]

/-- **C8** (amended): on a well-formed store an uninterrupted
`search(query, root)` returns exactly the records strictly below `root`
whose `name` contains `query` case-insensitively.  (The *order* is the
recursive walk's order — each matching entry is followed by the matches
of its own subtree before its later siblings; it is *not* breadth per
folder, see the counterexample.) -/
theorem search_membership_exact :
    ∀ (n : Nat) {s : Store}, Inv s → ∀ {q : String} {root : Path}
      {res : List Entry}, searchOp n s q root = some res →
      ∀ e, e ∈ res ↔ (e ∈ s ∧ root <+: e.path ∧ e.path ≠ root ∧
        strIncludes (lowerStr e.name) (lowerStr q) = true) := by
  intro n
  induction n with
  | zero =>
      intro s hs q root res h
      exact absurd h (by simp [searchOp])
  | succ n ih =>
      intro s hs q root res h e
      simp only [searchOp] at h
      have hmem := searchChildList_mem
        (fun p' x => x ∈ s ∧ p' <+: x.path ∧ x.path ≠ p' ∧
          strIncludes (lowerStr x.name) (lowerStr q) = true)
        (fun p' r hr e' => ih hs hr e') h e
      rw [hmem]
      constructor
      · rintro ⟨c, hc, hcase⟩
        obtain ⟨hcs, hcpar⟩ := mem_listE.mp hc
        have hcne : c.path ≠ [] ∧ c.path.dropLast = root := by
          rcases hs.parentEq c hcs with ⟨_, hnone⟩ | ⟨h1, h2⟩
          · rw [hnone] at hcpar
            exact absurd hcpar (by simp)
          · exact ⟨h1, by rw [h2] at hcpar; exact Option.some.inj hcpar⟩
        have hrc : root <+: c.path := hcne.2 ▸ List.dropLast_prefix c.path
        have hlen : c.path.length = root.length + 1 := by
          have hld := List.length_dropLast c.path
          rw [hcne.2] at hld
          have hpos : 0 < c.path.length := List.length_pos.mpr hcne.1
          omega
        rcases hcase with ⟨heq, hq⟩ | ⟨_, hG⟩
        · subst heq
          refine ⟨hcs, hrc, ?_, hq⟩
          intro hcon
          rw [hcon] at hlen
          omega
        · obtain ⟨hes, hce, _, hq⟩ := hG
          refine ⟨hes, hrc.trans hce, ?_, hq⟩
          intro hcon
          have hle := hce.length_le
          rw [hcon] at hle
          omega
      · rintro ⟨hes, hroot, hne, hq⟩
        obtain ⟨fc, hfc, _, hdisj, hfpar, hfpre⟩ :=
          closure_child hs hes hroot hne
        refine ⟨fc, mem_listE.mpr ⟨hfc, hfpar⟩, ?_⟩
        by_cases hfe : fc.path = e.path
        · left
          have hfeq : fc = e := entry_eq_of_path_eq hs.nodupPaths hfc hes hfe
          exact ⟨hfeq.symm, by rw [hfeq]; exact hq⟩
        · right
          rcases hdisj with hpp | hfol
          · exact absurd hpp hfe
          · exact ⟨hfol, hes, hfpre, fun hcon => hfe hcon.symm, hq⟩

/-- Witness for C8's amended statement, at the nested `stSearch` store. -/
theorem search_membership_exact_witness :
    mkFileE ["r", "a", "x"] "" ∈
        [mkFolderE ["r", "a"], mkFileE ["r", "a", "x"] "", mkFileE ["r", "b"] ""] ↔
      (mkFileE ["r", "a", "x"] "" ∈ stSearch ∧
        ["r"] <+: (mkFileE ["r", "a", "x"] "").path ∧
        (mkFileE ["r", "a", "x"] "").path ≠ ["r"] ∧
        strIncludes (lowerStr (mkFileE ["r", "a", "x"] "").name)
          (lowerStr "") = true) :=
  search_membership_exact 9 ⟨by decide, by decide, by decide, by decide⟩
    (by decide) (mkFileE ["r", "a", "x"] "")

/-- **C8** (counterexample to the claim as stated): searching `""` from
`/r` — whose children in index order are the folder `a` (containing the
file `x`) and the file `b` — returns `[a, a/x, b]`: the walk descends
into `a`'s subtree *before* listing the remaining matching sibling `b`,
so the order is not "all of a folder's matching entries before
descending into its subfolders" (which would give `[a, b, a/x]`). -/
theorem search_order_cex :
    searchOp 9 stSearch "" ["r"] =
        some [mkFolderE ["r", "a"], mkFileE ["r", "a", "x"] "",
          mkFileE ["r", "b"] ""] ∧
      [mkFolderE ["r", "a"], mkFileE ["r", "a", "x"] "", mkFileE ["r", "b"] ""]
        ≠ [mkFolderE ["r", "a"], mkFileE ["r", "b"] "",
            mkFileE ["r", "a", "x"] ""] := by
  decide

/-!
## Claim C9 — subtree size
-/

theorem sum_filter_map (s : Store) (φ : Entry → Bool) :
    ((s.filter φ).map Entry.size).sum =
      (s.map (fun e => if φ e then e.size else 0)).sum := by
  induction s with
  | nil => simp
  | cons a as ih =>
      by_cases ha : φ a
      · simp [List.filter_cons, ha, ih]
      · simp [List.filter_cons, ha, ih]

theorem sum_map_add (s : Store) (f g : Entry → Nat) :
    (s.map (fun e => f e + g e)).sum = (s.map f).sum + (s.map g).sum := by
  induction s with
  | nil => simp
  | cons a as ih =>
      simp only [List.map_cons, List.sum_cons, ih]
      omega

theorem sum_swap (cs : List Entry) (s : Store) (h : Entry → Entry → Nat) :
    (cs.map (fun c => (s.map (h c)).sum)).sum =
      (s.map (fun e => (cs.map (fun c => h c e)).sum)).sum := by
  induction cs with
  | nil => simp
  | cons c cs ih =>
      simp only [List.map_cons, List.sum_cons, ih]
      exact (sum_map_add s (h c) (fun e => (cs.map (fun c' => h c' e)).sum)).symm

theorem sum_ite_count (cs : List Entry) (φ : Entry → Bool) (v : Nat) :
    (cs.map (fun c => if φ c then v else 0)).sum = v * cs.countP φ := by
  induction cs with
  | nil => simp
  | cons c cs ih =>
      by_cases hc : φ c
      · simp only [List.map_cons, List.sum_cons, if_pos hc, ih,
          List.countP_cons, hc, if_true]
        ring
      · simp [hc, ih, List.countP_cons]

theorem list_eq_singleton_of_nodup {l : List Entry} {x : Entry}
    (hn : l.Nodup) (hx : x ∈ l) (hall : ∀ y ∈ l, y = x) : l = [x] := by
  cases l with
  | nil => exact absurd hx (by simp)
  | cons a as =>
      have ha : a = x := hall a (by simp)
      cases as with
      | nil => rw [ha]
      | cons b bs =>
          have hb : b = x := hall b (by simp)
          rw [List.nodup_cons] at hn
          exact absurd (show a ∈ b :: bs by rw [ha, ← hb]; simp) hn.1

/-- Each record of a well-formed store lies below exactly one child of
`p` when it lies strictly below `p`, and below none otherwise. -/
theorem countP_child_prefix {s : Store} (hs : Inv s) {p : Path} {e : Entry}
    (he : e ∈ s) :
    (listE s p).countP (fun c => decide (c.path <+: e.path)) =
      if p <+: e.path ∧ e.path ≠ p then 1 else 0 := by
  have hclen : ∀ c ∈ listE s p, c.path ≠ [] ∧ c.path.dropLast = p := by
    intro c hc
    obtain ⟨hcs, hcpar⟩ := mem_listE.mp hc
    rcases hs.parentEq c hcs with ⟨_, hnone⟩ | ⟨h1, h2⟩
    · rw [hnone] at hcpar
      exact absurd hcpar (by simp)
    · exact ⟨h1, by rw [h2] at hcpar; exact Option.some.inj hcpar⟩
  by_cases hcond : p <+: e.path ∧ e.path ≠ p
  · rw [if_pos hcond]
    obtain ⟨fc, hfc, hfp, _, hfpar, hfpre⟩ :=
      closure_child hs he hcond.1 hcond.2
    have hsnodup : s.Nodup := hs.nodupPaths.of_map
    rw [List.countP_eq_length_filter]
    have hlt : p.length < e.path.length := prefix_length_lt hcond.1 hcond.2
    have hsingle : (listE s p).filter
        (fun c => decide (c.path <+: e.path)) = [fc] := by
      apply list_eq_singleton_of_nodup
      · exact ((List.filter_sublist _).trans (List.filter_sublist s)).nodup
          hsnodup
      · exact List.mem_filter.mpr ⟨mem_listE.mpr ⟨hfc, hfpar⟩,
          by simp [hfpre]⟩
      · intro y hy
        obtain ⟨hyl, hypre⟩ := List.mem_filter.mp hy
        obtain ⟨hyne, hydrop⟩ := hclen y hyl
        have hypre' : y.path <+: e.path := by simpa using hypre
        have hylen : y.path.length = p.length + 1 := by
          have hld := List.length_dropLast y.path
          rw [hydrop] at hld
          have hpos : 0 < y.path.length := List.length_pos.mpr hyne
          omega
        have hyeq : y.path = fc.path := by
          rw [hfp, ← hylen]
          exact List.prefix_iff_eq_take.mp hypre'
        exact entry_eq_of_path_eq hs.nodupPaths
          (mem_listE.mp hyl).1 hfc hyeq
    rw [hsingle]
    rfl
  · rw [if_neg hcond]
    apply List.countP_eq_zero.mpr
    intro c hc hcp
    obtain ⟨hcne, hcdrop⟩ := hclen c hc
    have hcpre : c.path <+: e.path := by simpa using hcp
    have hpc : p <+: c.path := hcdrop ▸ List.dropLast_prefix c.path
    have hclen' : c.path.length = p.length + 1 := by
      have hld := List.length_dropLast c.path
      rw [hcdrop] at hld
      have hpos : 0 < c.path.length := List.length_pos.mpr hcne
      omega
    refine hcond ⟨hpc.trans hcpre, ?_⟩
    intro hcon
    have hle := hcpre.length_le
    rw [hcon] at hle
    omega

/-- Decomposition of the subtree file-size sum of a folder over its
children. -/
theorem fileSum_decomp {s : Store} (hs : Inv s) {p : Path} {item : Entry}
    (hget : getE s p = some item) (htype : item.type = EType.folder) :
    fileSum s p = ((listE s p).map (fun c => fileSum s c.path)).sum := by
  have hpoint : ∀ e ∈ s,
      (if decide (p <+: e.path) && decide (e.type = EType.file)
        then e.size else 0) =
      ((listE s p).map (fun c => if decide (c.path <+: e.path) &&
        decide (e.type = EType.file) then e.size else 0)).sum := by
    intro e he
    by_cases hfile : e.type = EType.file
    · have hform : ∀ c : Entry,
          (if decide (c.path <+: e.path) && decide (e.type = EType.file)
            then e.size else 0) =
          (if decide (c.path <+: e.path) then e.size else 0) := by
        intro c
        simp [hfile]
      rw [List.map_congr_left (fun c _ => hform c),
        sum_ite_count (listE s p) (fun c => decide (c.path <+: e.path)) e.size,
        countP_child_prefix hs he]
      by_cases hpe : p <+: e.path
      · have hnep : e.path ≠ p := by
          intro hcon
          have heqi : e = item := entry_eq_of_path_eq hs.nodupPaths he
            (mem_of_getE hget).1 (by rw [hcon, (mem_of_getE hget).2])
          rw [heqi, htype] at hfile
          exact absurd hfile (by simp)
        simp [hpe, hnep, hfile]
      · simp [hpe, hfile]
    · have hform : ∀ c : Entry,
          (if decide (c.path <+: e.path) && decide (e.type = EType.file)
            then e.size else 0) = 0 := by
        intro c
        simp [hfile]
      rw [List.map_congr_left (fun c _ => hform c)]
      simp [hfile]
  calc fileSum s p
      = (s.map (fun e => if decide (p <+: e.path) &&
          decide (e.type = EType.file) then e.size else 0)).sum :=
        sum_filter_map s _
    _ = (s.map (fun e => ((listE s p).map
          (fun c => if decide (c.path <+: e.path) &&
            decide (e.type = EType.file) then e.size else 0)).sum)).sum := by
        rw [List.map_congr_left hpoint]
    _ = ((listE s p).map (fun c => (s.map
          (fun e => if decide (c.path <+: e.path) &&
            decide (e.type = EType.file) then e.size else 0)).sum)).sum :=
        (sum_swap (listE s p) s _).symm
    _ = ((listE s p).map (fun c => fileSum s c.path)).sum := by
        apply congrArg List.sum
        exact List.map_congr_left (fun c _ => (sum_filter_map s _).symm)

/-- Specification of the size-summing loop, parametric in the recursive
call's specification. -/
theorem dirSizeList_spec {f : Path → Option Nat} (cond : Path → Prop)
    (g : Path → Nat)
    (hf : ∀ p' t, cond p' → f p' = some t → t = g p') :
    ∀ {cs : List Entry} {t : Nat}, (∀ c ∈ cs, cond c.path) →
      dirSizeList f cs = some t →
      t = (cs.map (fun c => g c.path)).sum := by
  intro cs
  induction cs with
  | nil =>
      intro t _ h
      simp only [dirSizeList, Option.some.injEq] at h
      rw [← h]
      simp
  | cons c cs ih =>
      intro t hcond h
      simp only [dirSizeList] at h
      cases hfc : f c.path with
      | none =>
          rw [hfc] at h
          exact absurd h (by simp)
      | some a =>
          rw [hfc] at h
          cases hrec : dirSizeList f cs with
          | none =>
              rw [hrec] at h
              exact absurd h (by simp)
          | some b =>
              rw [hrec] at h
              simp only [Option.some.injEq] at h
              rw [← h, List.map_cons, List.sum_cons,
                hf c.path a (hcond c (by simp)) hfc,
                ih (fun x hx => hcond x (by simp [hx])) hrec]

/-- The fueled `dirSize` computes the subtree file-size sum. -/
theorem dirSizeOp_eq_fileSum :
    ∀ (n : Nat) {s : Store} {p : Path} {t : Nat}, Inv s →
      (p ≠ [] ∨ (getE s p).isSome) → dirSizeOp n s p = some t →
      t = fileSum s p := by
  intro n
  induction n with
  | zero =>
      intro s p t _ _ h
      exact absurd h (by simp [dirSizeOp])
  | succ n ih =>
      intro s p t hs hp h
      cases hget : getE s p with
      | none =>
          simp only [dirSizeOp, hget, Option.some.injEq] at h
          rw [← h]
          have hpn : p ≠ [] := by
            rcases hp with h1 | h1
            · exact h1
            · rw [hget] at h1
              exact absurd h1 (by simp)
          have hnil : s.filter (fun e => decide (p <+: e.path) &&
              decide (e.type = EType.file)) = [] := by
            apply List.filter_eq_nil_iff.mpr
            intro e he hcond
            simp only [Bool.and_eq_true, decide_eq_true_eq] at hcond
            obtain ⟨hpe, _⟩ := hcond
            by_cases heq : e.path = p
            · exact getE_eq_none.mp hget e he heq
            · obtain ⟨g, hg, hgp, _⟩ :=
                folder_at_of_strict_desc hs he hpe heq hpn
              exact getE_eq_none.mp hget g hg hgp
          rw [fileSum, hnil]
          simp
      | some item =>
          obtain ⟨hitem, hitemp⟩ := mem_of_getE hget
          by_cases hfile : item.type = EType.file
          · simp only [dirSizeOp, hget, if_pos hfile, Option.some.injEq] at h
            rw [← h]
            have hnfol : ¬(item.type = EType.folder) := by
              rw [hfile]
              simp
            have hpn : p ≠ [] := fun hcon =>
              hnfol (hs.rootFolder item hitem (hitemp.trans hcon))
            have hsingle : s.filter (fun e => decide (p <+: e.path) &&
                decide (e.type = EType.file)) = [item] := by
              apply list_eq_singleton_of_nodup
              · exact (List.filter_sublist s).nodup hs.nodupPaths.of_map
              · refine List.mem_filter.mpr ⟨hitem, ?_⟩
                simp [hitemp, hfile]
              · intro y hy
                obtain ⟨hys, hycond⟩ := List.mem_filter.mp hy
                simp only [Bool.and_eq_true, decide_eq_true_eq] at hycond
                obtain ⟨hype, _⟩ := hycond
                by_cases heq : y.path = p
                · exact entry_eq_of_path_eq hs.nodupPaths hys hitem
                    (heq.trans hitemp.symm)
                · obtain ⟨g, hg, hgp, hgt⟩ :=
                    folder_at_of_strict_desc hs hys hype heq hpn
                  have hgi : g = item := entry_eq_of_path_eq hs.nodupPaths
                    hg hitem (hgp.trans hitemp.symm)
                  rw [hgi] at hgt
                  exact absurd hgt hnfol
            rw [fileSum, hsingle]
            simp
          · have hfol : item.type = EType.folder := by
              cases h0 : item.type with
              | folder => rfl
              | file => exact absurd h0 hfile
            simp only [dirSizeOp, hget, if_neg hfile] at h
            have hchild : ∀ c ∈ listE s p, c.path ≠ [] := by
              intro c hc
              obtain ⟨hcs, hcp⟩ := mem_listE.mp hc
              rcases hs.parentEq c hcs with ⟨_, hnone⟩ | ⟨hne', _⟩
              · rw [hnone] at hcp
                exact absurd hcp (by simp)
              · exact hne'
            have ht := dirSizeList_spec (fun q => q ≠ [])
              (fun q => fileSum s q)
              (fun q tq hq hfq => ih hs (Or.inl hq) hfq) hchild h
            rw [ht]
            exact (fileSum_decomp hs hget hfol).symm

/-- **C9** (confirmed): on a well-formed store, `dirSize(path)` of an
existing file returns that file's own `size`, and an uninterrupted
`dirSize(path)` of an existing folder returns the sum of `size` over
every *file* record transitively at or below the folder, recomputed by
traversal — folder `size` fields never enter the sum. -/
theorem dirSize_fresh_sum {n : Nat} {s : Store} {p : Path} {item : Entry}
    (hs : Inv s) (hget : getE s p = some item) :
    (item.type = EType.file → dirSizeOp (n + 1) s p = some item.size) ∧
    (∀ t, item.type = EType.folder → dirSizeOp n s p = some t →
        t = fileSum s p) := by
  constructor
  · intro hfile
    simp [dirSizeOp, hget, hfile]
  · intro t _ h
    exact dirSizeOp_eq_fileSum n hs (Or.inr (by simp [hget])) h

/-- Witness for C9, on two files of sizes 10 and 20 under `/D`. -/
theorem dirSize_fresh_sum_witness :
    dirSizeOp 9 stSize ["D", "a"] = some (mkFileE ["D", "a"] "0123456789").size ∧
      (30 : Nat) = fileSum stSize ["D"] := by
  have h1 := (@dirSize_fresh_sum 8 stSize ["D", "a"]
    (mkFileE ["D", "a"] "0123456789")
    ⟨by decide, by decide, by decide, by decide⟩ (by decide)).1 (by decide)
  have h2 := (@dirSize_fresh_sum 9 stSize ["D"] (mkFolderE ["D"])
    ⟨by decide, by decide, by decide, by decide⟩ (by decide)).2 30
    (by decide) (by decide)
  exact ⟨h1, h2⟩

-- Sanity checks of the embedding on concrete data.
example :
    (createFile [] ["Users"] "a.txt" "hi" 3).map (fun r => r.1.size) =
      some 2 := by decide

example :
    getE [] ["x"] = none := by decide

end VFS
